import Mathlib

/-!
Shallow embedding of the A-CEEI course-allocation search code
(`fairpyx/algorithms/ACEEI.py` and `fairpyx/algorithms/tabu_search.py`)
and proofs about it.

Modelling conventions:
* Python dictionaries (prices, allocations, excess-demand vectors) are
  association lists `List (key × value)`; key order is insertion order,
  matching CPython dict semantics.  `lookupD` is lookup with a default
  (every in-repo call site only looks up keys that are present), and
  `setKey` is dict assignment (existing keys keep their position, fresh
  keys are appended).
* The external fairpyx `Instance` collaborator is a structure of the
  query functions the algorithms use (agent list, item list, capacities,
  bundle value, maximum value), per spec section 6.
* Budgets are queried only pointwise and are modelled as functions.
* Floating-point quantities are modelled as exact rationals; the
  increment `np.sqrt(0.5)` is modelled by the exact rational value of
  the IEEE-754 double closest to the square root of one half.
* The predicate closures generated by `find_all_equivalent_prices` are
  modelled as tagged constraint data evaluated by an interpreter
  (exactly the representation the spec design notes propose).
-/

/-- Association-list lookup with a default value (Python dict access;
in-repo call sites only access keys that are present). -/
def lookupD {I α : Type} [DecidableEq I] : List (I × α) → I → α → α
  | [], _, d => d
  | (j, v) :: rest, i, d => if i = j then v else lookupD rest i d

/-- Python dict assignment on an association list: an existing key keeps
its position and gets the new value, a fresh key is appended at the end. -/
def setKey {I α : Type} [DecidableEq I] : List (I × α) → I → α → List (I × α)
  | [], i, v => [(i, v)]
  | (j, w) :: rest, i, v => if j = i then (j, v) :: rest else (j, w) :: setKey rest i v

/-- `itertools.combinations(l, r)`: all sublists of length `r`, in the
same enumeration order as the Python iterator. -/
def combinations {α : Type} : Nat → List α → List (List α)
  | 0, _ => [[]]
  | _ + 1, [] => []
  | r + 1, x :: xs => (combinations r xs).map (fun c => x :: c) ++ combinations (r + 1) xs

/-- The list built by `for r in range(1, capacity + 1):
combinations_courses_list.extend(combinations(items, r))`. -/
def combinationsList {α : Type} (items : List α) : Nat → List (List α)
  | 0 => []
  | c + 1 => combinationsList items c ++ combinations (c + 1) items

/-- One insertion step of a stable descending sort by key: the element is
placed after every element with a strictly larger key and before the
first element whose key is at most its own, so ties keep input order. -/
def insertDesc {α : Type} (key : α → ℚ) (x : α) : List α → List α
  | [] => [x]
  | y :: ys => if key x < key y then y :: insertDesc key x ys else x :: y :: ys

/-- Stable descending sort by key, modelling Python
`sorted(l, key=key, reverse=True)` (Python sort is stable). -/
def sortDesc {α : Type} (key : α → ℚ) : List α → List α
  | [] => []
  | x :: xs => insertDesc key x (sortDesc key xs)

/-- One insertion step of an ascending sort on items. -/
def insertAsc {I : Type} [LinearOrder I] (x : I) : List I → List I
  | [] => [x]
  | y :: ys => if y < x then y :: insertAsc x ys else x :: y :: ys

/-- Ascending sort on items, modelling Python `sorted(combination)`. -/
def sortAsc {I : Type} [LinearOrder I] : List I → List I
  | [] => []
  | x :: xs => insertAsc x (sortAsc xs)

/-- The slice of the external fairpyx `Instance` collaborator that the
algorithms query (spec section 6): agent list, item list, per-agent
capacity, per-item capacity, bundle value and maximum attainable value. -/
structure Instance (A I : Type) where
  agents : List A
  items : List I
  agent_capacity : A → Nat
  item_capacity : I → Int
  agent_bundle_value : A → List I → ℚ
  agent_maximum_value : A → ℚ

/-- `sum(prices[course] for course in combination)`. -/
def priceOfBundle {I : Type} [DecidableEq I] (prices : List (I × ℚ)) (bundle : List I) : ℚ :=
  (bundle.map (fun i => lookupD prices i 0)).sum

/-- `tabu_search.excess_demand`: for every course of the instance, count
the agents whose bundle contains the course and subtract the course
capacity; the result dict is keyed in instance item order. -/
def excess_demand {A I : Type} [DecidableEq I] (inst : Instance A I)
    (allocation : List (A × List I)) : List (I × Int) :=
  inst.items.map (fun course =>
    (course,
      (allocation.countP (fun sb => decide (course ∈ sb.2)) : Int) - inst.item_capacity course))

/-- `tabu_search.clipped_excess_demand`: floor the excess demand of every
course priced at exactly zero at zero, leave other courses unchanged. -/
def clipped_excess_demand {A I : Type} [DecidableEq I] (inst : Instance A I)
    (prices : List (I × ℚ)) (allocation : List (A × List I)) : List (I × Int) :=
  (excess_demand inst allocation).map (fun cv =>
    (cv.1, if lookupD prices cv.1 0 = 0 then max 0 cv.2 else cv.2))

/-- The sort key of the ACEEI enumeration (`student_best_bundle_per_budget`):
bundle value plus a bonus of the agent maximum value exactly when the
combination fills the agent capacity. -/
def window_valuation {A I : Type} (inst : Instance A I) (student : A) (c : List I) : ℚ :=
  inst.agent_bundle_value student c +
    (if c.length = inst.agent_capacity student then inst.agent_maximum_value student else 0)

/-- `combinations_courses_sorted` of the tabu-search enumeration
(`student_best_bundles` and `compute_best_bundles_for_student`): the raw
bundle value is the key, with no capacity bonus. -/
def combinations_courses_sorted_fixed {A I : Type} (inst : Instance A I) (student : A) :
    List (List I) :=
  sortDesc (fun c => inst.agent_bundle_value student c)
    (combinationsList inst.items (inst.agent_capacity student))

/-- `combinations_courses_sorted` of the ACEEI enumeration
(`student_best_bundle_per_budget`), sorted by `window_valuation`. -/
def combinations_courses_sorted_window {A I : Type} (inst : Instance A I) (student : A) :
    List (List I) :=
  sortDesc (window_valuation inst student)
    (combinationsList inst.items (inst.agent_capacity student))

/-- The accumulation loop shared by `student_best_bundles` and
`compute_best_bundles_for_student`: walk the sorted combinations, skip
unaffordable ones, reset the kept list when the running maximum strictly
improves, append on ties (`max_valuation` starts at -1). -/
def best_bundles_loop {I : Type} (pf vf : List I → ℚ) (budget : ℚ) :
    List (List I) → ℚ → List (List I) → List (List I)
  | [], _, best => best
  | c :: rest, maxVal, best =>
    if pf c ≤ budget then
      if maxVal ≤ vf c then
        if maxVal < vf c then best_bundles_loop pf vf budget rest (vf c) [c]
        else best_bundles_loop pf vf budget rest (vf c) (best ++ [c])
      else best_bundles_loop pf vf budget rest maxVal best
    else best_bundles_loop pf vf budget rest maxVal best

/-- `itertools.product` over a list of candidate lists, in the same
enumeration order (first factor varies slowest). -/
def listProduct {α : Type} : List (List α) → List (List α)
  | [] => [[]]
  | l :: ls => l.foldr (fun x acc => (listProduct ls).map (fun t => x :: t) ++ acc) []

/-- The shared tail of `student_best_bundles` and
`student_best_bundles_with_threads` (the Python code duplicates it
textually): zip each choice of per-agent bundles with the agents, keep
the affordable pairs, and keep the allocation only when every agent
survived the affordability filter. -/
def valid_allocations {A I : Type} [DecidableEq I] (prices : List (I × ℚ)) (agents : List A)
    (initial_budgets : A → ℚ) (all_combinations_list : List (List (List I))) :
    List (List (A × List I)) :=
  all_combinations_list.filterMap (fun bundles =>
    let valid := (agents.zip bundles).filter
      (fun sb => decide (priceOfBundle prices sb.2 ≤ initial_budgets sb.1))
    if valid.length = agents.length then some valid else none)

/-- `tabu_search.student_best_bundles` (sequential fixed-budget mode):
for every agent all maximum-value affordable combinations (the empty
bundle when none is affordable), then all valid combinations of those. -/
def student_best_bundles {A I : Type} [DecidableEq I] (prices : List (I × ℚ))
    (inst : Instance A I) (initial_budgets : A → ℚ) : List (List (A × List I)) :=
  valid_allocations prices inst.agents initial_budgets
    (listProduct (inst.agents.map (fun student =>
      let best := best_bundles_loop (priceOfBundle prices) (inst.agent_bundle_value student)
        (initial_budgets student) (combinations_courses_sorted_fixed inst student) (-1) []
      if best = [] then [[]] else best)))

/-- `tabu_search.compute_best_bundles_for_student`: the per-student body
submitted to the thread pool; returns the student together with the
best-combination list. -/
def compute_best_bundles_for_student {A I : Type} [DecidableEq I] (student : A)
    (inst : Instance A I) (prices : List (I × ℚ)) (initial_budgets : A → ℚ) :
    A × List (List I) :=
  let best := best_bundles_loop (priceOfBundle prices) (inst.agent_bundle_value student)
    (initial_budgets student) (combinations_courses_sorted_fixed inst student) (-1) []
  (student, if best = [] then [[]] else best)

/-- `tabu_search.student_best_bundles_with_threads`: one future per agent,
results awaited and merged in submission order (agent-list order), so the
thread pool is modelled as a per-agent map; the validity tail is the same
code as in the sequential version. -/
def student_best_bundles_with_threads {A I : Type} [DecidableEq I] (prices : List (I × ℚ))
    (inst : Instance A I) (initial_budgets : A → ℚ) : List (List (A × List I)) :=
  valid_allocations prices inst.agents initial_budgets
    (listProduct (inst.agents.map (fun student =>
      (compute_best_bundles_for_student student inst prices initial_budgets).2)))

/-- The per-student walk of `ACEEI.student_best_bundle_per_budget` over the
window-sorted combinations; `minPrice = none` models the initial
`float(Inf)`.  The first combination priced at or below the minimum
budget is recorded under the minimum budget and the walk stops; any other
combination priced at most the maximum budget is recorded under its own
price when that price strictly improves on `minPrice`. -/
def budgetWalk {I : Type} [DecidableEq I] (pf : List I → ℚ) (minBudget maxBudget : ℚ) :
    List (List I) → Option ℚ → List (ℚ × List I) → List (ℚ × List I)
  | [], _, acc => acc
  | c :: rest, minPrice, acc =>
    if pf c ≤ maxBudget then
      if pf c ≤ minBudget then setKey acc minBudget c
      else if (match minPrice with | none => true | some m => decide (pf c < m)) then
        budgetWalk pf minBudget maxBudget rest (some (pf c)) (setKey acc (pf c) c)
      else budgetWalk pf minBudget maxBudget rest minPrice acc
    else budgetWalk pf minBudget maxBudget rest minPrice acc

/-- `ACEEI.student_best_bundle_per_budget` (window mode): for every agent
the walk over the window `[budget - epsilon, budget + epsilon]`. -/
def student_best_bundle_per_budget {A I : Type} [DecidableEq I] (prices : List (I × ℚ))
    (inst : Instance A I) (epsilon : ℚ) (initial_budgets : A → ℚ) :
    List (A × List (ℚ × List I)) :=
  inst.agents.map (fun student =>
    (student,
      budgetWalk (priceOfBundle prices) (initial_budgets student - epsilon)
        (initial_budgets student + epsilon)
        (combinations_courses_sorted_window inst student) none []))

/-- The two shapes of price predicate generated by
`find_all_equivalent_prices`, as tagged data (the representation the spec
design notes propose for the Python lambda closures): the summed price of
a key set compared against a budget bound. -/
inductive PriceConstraint (I : Type) where
  | le (keys : List I) (bound : ℚ)
  | gt (keys : List I) (bound : ℚ)

/-- Evaluate one generated predicate at a price vector. -/
def evalConstraint {I : Type} [DecidableEq I] (p : List (I × ℚ)) : PriceConstraint I → Bool
  | .le keys bound => decide (priceOfBundle p keys ≤ bound)
  | .gt keys bound => decide (bound < priceOfBundle p keys)

/-- `any(all(f(updated_prices) for f in sublist) for sublist in history)`:
a price vector is tabu when it satisfies every constraint of some
recorded constraint set. -/
def isTabu {I : Type} [DecidableEq I] (history : List (List (PriceConstraint I)))
    (p : List (I × ℚ)) : Bool :=
  history.any (fun sublist => sublist.all (fun f => evalConstraint p f))

/-- `all([f(p) for f in equivalent_prices])`: feeding a price vector back
into every generated predicate. -/
def all_equivalent_prices_hold {I : Type} [DecidableEq I] (p : List (I × ℚ))
    (cs : List (PriceConstraint I)) : Bool :=
  cs.all (fun f => evalConstraint p f)

/-- The inner combination loop of `find_all_equivalent_prices` for one
student: skip the current bundle (setting `current_alloc`), skip same-size
combinations after it, and for every remaining combination whose value
reaches the original utility emit the generated constraint.  Faithful to
the source, the emitted constraint is the one the lambda actually builds:
the price of the CURRENT bundle must exceed the budget (the alternative
combination is computed into `combination_copy` but never used). -/
def nonimprovement_loop {I : Type} [LinearOrder I] (vf : List I → ℚ) (originalUtility : ℚ)
    (sortedAllocStudent : List I) (constraint : PriceConstraint I) :
    List (List I) → Bool → List (PriceConstraint I)
  | [], _ => []
  | c :: rest, currentAlloc =>
    if sortAsc c = sortedAllocStudent then
      nonimprovement_loop vf originalUtility sortedAllocStudent constraint rest true
    else if currentAlloc && decide ((sortAsc c).length = sortedAllocStudent.length) then
      nonimprovement_loop vf originalUtility sortedAllocStudent constraint rest currentAlloc
    else if originalUtility ≤ vf c then
      constraint :: nonimprovement_loop vf originalUtility sortedAllocStudent constraint rest currentAlloc
    else nonimprovement_loop vf originalUtility sortedAllocStudent constraint rest currentAlloc

/-- `tabu_search.find_all_equivalent_prices`: budget-adherence constraints
for every agent, then the non-improvement constraints of every agent. -/
def find_all_equivalent_prices {A I : Type} [DecidableEq A] [LinearOrder I]
    (inst : Instance A I) (initial_budgets : A → ℚ) (allocation : List (A × List I)) :
    List (PriceConstraint I) :=
  inst.agents.map (fun student =>
    PriceConstraint.le (lookupD allocation student []) (initial_budgets student))
  ++ inst.agents.foldr (fun student acc =>
      nonimprovement_loop (inst.agent_bundle_value student)
        (inst.agent_bundle_value student (lookupD allocation student []))
        (sortAsc (lookupD allocation student []))
        (PriceConstraint.gt (lookupD allocation student []) (initial_budgets student))
        (combinationsList inst.items (inst.agent_capacity student)) false ++ acc) []

/-- The delta loop of `tabu_search.find_gradient_neighbors`: for each step
size, move every price by delta times the excess demand, clipped below at
zero, and keep the vector when it is not tabu. -/
def gradient_neighbors_loop {I : Type} [DecidableEq I] (prices : List (I × ℚ))
    (excess_demand_vector : List (I × ℚ)) (history : List (List (PriceConstraint I))) :
    List ℚ → List (List (I × ℚ))
  | [] => []
  | d :: ds =>
    let updated := prices.map (fun cp =>
      (cp.1, max 0 (cp.2 + d * lookupD excess_demand_vector cp.1 0)))
    if isTabu history updated then gradient_neighbors_loop prices excess_demand_vector history ds
    else updated :: gradient_neighbors_loop prices excess_demand_vector history ds

/-- `tabu_search.find_gradient_neighbors`. -/
def find_gradient_neighbors {I : Type} [DecidableEq I] (prices : List (I × ℚ)) (delta : List ℚ)
    (excess_demand_vector : List (I × ℚ)) (history : List (List (PriceConstraint I))) :
    List (List (I × ℚ)) :=
  gradient_neighbors_loop prices excess_demand_vector history delta

/-- `key in dict` for an association list. -/
def containsKey {A α : Type} [DecidableEq A] (l : List (A × α)) (k : A) : Bool :=
  l.any (fun kv => decide (kv.1 = k))

/-- `tabu_search.differ_in_one_value`: the two allocations differ on
exactly one shared key, and on that key the course belongs to the
original bundle but not to the new one. -/
def differ_in_one_value {A I : Type} [DecidableEq A] [DecidableEq I]
    (original_allocation new_allocation : List (A × List I)) (course : I) : Bool :=
  let diffs := original_allocation.filter (fun kv =>
    containsKey new_allocation kv.1 && decide (lookupD new_allocation kv.1 [] ≠ kv.2))
  match diffs with
  | [kv] => decide (course ∈ kv.2) && !(decide (course ∈ lookupD new_allocation kv.1 []))
  | _ => false

/-- The exact rational value of the IEEE-754 double `np.sqrt(0.5)`. -/
def sqrt_half : ℚ := 6369051672525773 / 9007199254740992

/-- The `for _ in range(10)` loop of
`find_individual_price_adjustment_neighbors` for one positive-excess
course: bump the course price by `sqrt_half` cumulatively; when the bumped
vector is not tabu, recompute the best bundles and append one copy of the
bumped vector for every allocation that differs from the current one by
exactly that course. -/
def positive_adjustment_steps {A I : Type} [DecidableEq A] [DecidableEq I]
    (inst : Instance A I) (history : List (List (PriceConstraint I)))
    (initial_budgets : A → ℚ) (allocation : List (A × List I)) (use_threads : Bool)
    (course : I) :
    Nat → List (I × ℚ) → List (List (I × ℚ)) → List (List (I × ℚ))
  | 0, _, acc => acc
  | n + 1, updated_prices, acc =>
    let up := setKey updated_prices course (lookupD updated_prices course 0 + sqrt_half)
    if isTabu history up then
      positive_adjustment_steps inst history initial_budgets allocation use_threads course n up acc
    else
      let new_allocations :=
        if use_threads then student_best_bundles_with_threads up inst initial_budgets
        else student_best_bundles up inst initial_budgets
      let hits := new_allocations.filter (fun na => differ_in_one_value allocation na course)
      positive_adjustment_steps inst history initial_budgets allocation use_threads course n up
        (acc ++ hits.map (fun _ => up))

/-- The course loop of `find_individual_price_adjustment_neighbors`:
break when 35 neighbors have been collected, skip courses with zero
excess demand, run the ten bump steps on positive excess demand, snap the
price to zero on negative excess demand when not tabu. -/
def individual_adjustment_loop {A I : Type} [DecidableEq A] [DecidableEq I]
    (inst : Instance A I) (history : List (List (PriceConstraint I)))
    (prices : List (I × ℚ)) (initial_budgets : A → ℚ) (allocation : List (A × List I))
    (use_threads : Bool) :
    List (I × ℚ) → List (List (I × ℚ)) → List (List (I × ℚ))
  | [], acc => acc
  | (course, ed) :: rest, acc =>
    if 35 ≤ acc.length then acc
    else if ed = 0 then
      individual_adjustment_loop inst history prices initial_budgets allocation use_threads rest acc
    else if 0 < ed then
      individual_adjustment_loop inst history prices initial_budgets allocation use_threads rest
        (positive_adjustment_steps inst history initial_budgets allocation use_threads course
          10 prices acc)
    else
      let up := setKey prices course 0
      if isTabu history up then
        individual_adjustment_loop inst history prices initial_budgets allocation use_threads rest acc
      else
        individual_adjustment_loop inst history prices initial_budgets allocation use_threads rest
          (acc ++ [up])

/-- `tabu_search.find_individual_price_adjustment_neighbors`. -/
def find_individual_price_adjustment_neighbors {A I : Type} [DecidableEq A] [DecidableEq I]
    (inst : Instance A I) (history : List (List (PriceConstraint I)))
    (prices : List (I × ℚ)) (excess_demand_vector : List (I × ℚ))
    (initial_budgets : A → ℚ) (allocation : List (A × List I)) (use_threads : Bool) :
    List (List (I × ℚ)) :=
  individual_adjustment_loop inst history prices initial_budgets allocation use_threads
    excess_demand_vector []

/-- The ACEEI driver price update (`find_ACEEI_with_EFTB` step 4):
`prices[key] += delta * excess_demand_per_course[key]` for every price
key, with no clipping at zero. -/
def aceei_price_update {I : Type} [DecidableEq I] (delta : ℚ)
    (excess_demand_per_course : List (I × ℚ)) (prices : List (I × ℚ)) : List (I × ℚ) :=
  prices.map (fun kv => (kv.1, kv.2 + delta * lookupD excess_demand_per_course kv.1 0))

/-! ### Concrete inputs used by witnesses and counterexamples -/

/-- One agent with capacity 2 over items 0,1; only item 0 has value. -/
def instC1 : Instance ℕ ℕ :=
  ⟨[0], [0, 1], fun _ => 2, fun _ => 1,
   fun _ b => (b.map (fun i => if i = 0 then (1:ℚ) else 0)).sum, fun _ => 1⟩

def budC1 : ℕ → ℚ := fun _ => 0

def pC1 : List (ℕ × ℚ) := [(0, 0), (1, 100)]

def allocC1 : List (ℕ × List ℕ) := [(0, [0])]

/-- One agent, one unit-valued item. -/
def instC2 : Instance ℕ ℕ :=
  ⟨[0], [0], fun _ => 1, fun _ => 1,
   fun _ b => (b.map (fun _ => (1:ℚ))).sum, fun _ => 1⟩

def pC2 : List (ℕ × ℚ) := [(0, 1)]

def zC2 : List (ℕ × ℚ) := [(0, -1)]

def budC2 : ℕ → ℚ := fun _ => 10

def allocC2 : List (ℕ × List ℕ) := [(0, [0])]

/-- One agent with capacity 2 over items 0,1,2; only item 0 has value, so
the raw-value order and the bonus order of the combinations disagree. -/
def instC3 : Instance ℕ ℕ :=
  ⟨[0], [0, 1, 2], fun _ => 2, fun _ => 1,
   fun _ b => (b.map (fun i => if i = 0 then (5:ℚ) else 0)).sum, fun _ => 5⟩

/-- One agent, one item of price 3, budget 2, so with epsilon 1 the single
combination is priced exactly at budget + epsilon. -/
def instC4 : Instance ℕ ℕ :=
  ⟨[0], [0], fun _ => 1, fun _ => 1,
   fun _ b => (b.map (fun _ => (1:ℚ))).sum, fun _ => 1⟩

def pC4 : List (ℕ × ℚ) := [(0, 3)]

def budC4 : ℕ → ℚ := fun _ => 2

def pC4b : List (ℕ × ℚ) := [(0, 1)]

def budC4b : ℕ → ℚ := fun _ => 2

/-- Four agents with capacity 1 over two equal-valued items, all holding
item 0; bumping the price of item 0 keeps both items tied as best
bundles, so every bump step contributes four one-agent deviations. -/
def instC5 : Instance ℕ ℕ :=
  ⟨[0, 1, 2, 3], [0, 1], fun _ => 1, fun _ => 1,
   fun _ b => (b.map (fun _ => (1:ℚ))).sum, fun _ => 1⟩

def pC5 : List (ℕ × ℚ) := [(0, 0), (1, 0)]

def zC5 : List (ℕ × ℚ) := [(0, 3), (1, 0)]

def zC5b : List (ℕ × ℚ) := [(0, -1), (1, 0)]

def budC5 : ℕ → ℚ := fun _ => 100

def allocC5 : List (ℕ × List ℕ) := [(0, [0]), (1, [0]), (2, [0]), (3, [0])]

/-- One agent, one item priced 10, budget 1: no combination affordable. -/
def instC6 : Instance ℕ ℕ :=
  ⟨[0], [0], fun _ => 1, fun _ => 1,
   fun _ b => (b.map (fun _ => (1:ℚ))).sum, fun _ => 1⟩

def pC6 : List (ℕ × ℚ) := [(0, 10)]

def budC6 : ℕ → ℚ := fun _ => 1

/-- One agent, one free item of capacity 2 (excess demand -1, price 0). -/
def instC7 : Instance ℕ ℕ :=
  ⟨[0], [0], fun _ => 1, fun _ => 2,
   fun _ b => (b.map (fun _ => (0:ℚ))).sum, fun _ => 0⟩

def pC7 : List (ℕ × ℚ) := [(0, 0)]

def allocC7 : List (ℕ × List ℕ) := [(0, [0])]

/-- The spec scenario for excess demand: agents ami, tami as 0, 1; items
x, y, z as 0, 1, 2 with capacities 2, 1, 3; both agents hold (x, y). -/
def instC8 : Instance ℕ ℕ :=
  ⟨[0, 1], [0, 1, 2], fun _ => 2,
   fun i => if i = 0 then 2 else if i = 1 then 1 else 3,
   fun _ b => (b.map (fun _ => (0:ℚ))).sum, fun _ => 0⟩

def allocC8 : List (ℕ × List ℕ) := [(0, [0, 1]), (1, [0, 1])]

def allocC8swap : List (ℕ × List ℕ) := [(1, [0, 1]), (0, [0, 1])]

/-- One agent, one free item, budget 1. -/
def instC9 : Instance ℕ ℕ :=
  ⟨[0], [0], fun _ => 1, fun _ => 1,
   fun _ b => (b.map (fun _ => (1:ℚ))).sum, fun _ => 1⟩

def pC9 : List (ℕ × ℚ) := [(0, 0)]

def budC9 : ℕ → ℚ := fun _ => 1

-- Batteries marks the rational arithmetic operations irreducible; restore
-- the default reducibility so that concrete evaluations of the embedded
-- functions reduce.
attribute [local semireducible] Rat.add Rat.sub Rat.mul Rat.inv Rat.ofScientific

set_option maxRecDepth 10000

/-! ### Helper lemmas -/

theorem mem_insertDesc {α : Type} (key : α → ℚ) (x : α) (l : List α) (a : α) :
    a ∈ insertDesc key x l ↔ a = x ∨ a ∈ l := by
  induction l with
  | nil => simp [insertDesc]
  | cons y ys ih =>
    simp only [insertDesc]
    split
    · simp only [List.mem_cons, ih]
      tauto
    · simp [List.mem_cons]

theorem pairwise_insertDesc {α : Type} (key : α → ℚ) (x : α) (l : List α)
    (h : List.Pairwise (fun a b => key b ≤ key a) l) :
    List.Pairwise (fun a b => key b ≤ key a) (insertDesc key x l) := by
  induction l with
  | nil => simp [insertDesc]
  | cons y ys ih =>
    rw [List.pairwise_cons] at h
    obtain ⟨hy, hys⟩ := h
    simp only [insertDesc]
    split
    · rename_i hlt
      rw [List.pairwise_cons]
      refine ⟨?_, ih hys⟩
      intro a ha
      rcases (mem_insertDesc key x ys a).1 ha with rfl | ha
      · exact le_of_lt hlt
      · exact hy a ha
    · rename_i hge
      push_neg at hge
      rw [List.pairwise_cons]
      refine ⟨?_, List.pairwise_cons.2 ⟨hy, hys⟩⟩
      intro a ha
      rcases List.mem_cons.1 ha with rfl | ha
      · exact hge
      · exact le_trans (hy a ha) hge

theorem sortDesc_pairwise {α : Type} (key : α → ℚ) (l : List α) :
    List.Pairwise (fun a b => key b ≤ key a) (sortDesc key l) := by
  induction l with
  | nil => simp [sortDesc]
  | cons x xs ih => exact pairwise_insertDesc key x (sortDesc key xs) ih

theorem mem_sortDesc {α : Type} (key : α → ℚ) (l : List α) (a : α) :
    a ∈ sortDesc key l ↔ a ∈ l := by
  induction l with
  | nil => simp [sortDesc]
  | cons x xs ih => simp [sortDesc, mem_insertDesc, ih]

theorem lookupD_map_self {I α : Type} [DecidableEq I] (g : I → α) (items : List I) (c : I)
    (hc : c ∈ items) (d : α) :
    lookupD (items.map (fun i => (i, g i))) c d = g c := by
  induction items with
  | nil => cases hc
  | cons j rest ih =>
    simp only [List.map_cons, lookupD]
    by_cases h : c = j
    · subst h
      simp
    · rw [if_neg h]
      refine ih ?_
      rcases List.mem_cons.1 hc with h2 | h2
      · exact absurd h2 h
      · exact h2

theorem mem_setKey {I α : Type} [DecidableEq I] (k : I) (v : α) :
    ∀ (l : List (I × α)) (e : I × α), e ∈ setKey l k v → e = (k, v) ∨ e ∈ l := by
  intro l
  induction l with
  | nil =>
    intro e he
    simp only [setKey, List.mem_singleton] at he
    exact Or.inl he
  | cons jw rest ih =>
    obtain ⟨j, w⟩ := jw
    intro e he
    simp only [setKey] at he
    split at he
    · rename_i hj
      rcases List.mem_cons.1 he with rfl | h2
      · exact Or.inl (by rw [hj])
      · exact Or.inr (List.mem_cons_of_mem _ h2)
    · rcases List.mem_cons.1 he with rfl | h2
      · exact Or.inr (List.mem_cons_self _ _)
      · rcases ih e h2 with h3 | h3
        · exact Or.inl h3
        · exact Or.inr (List.mem_cons_of_mem _ h3)

theorem setKey_fresh {I α : Type} [DecidableEq I] (k : I) (v : α) :
    ∀ (l : List (I × α)), (∀ e ∈ l, e.1 ≠ k) → setKey l k v = l ++ [(k, v)] := by
  intro l
  induction l with
  | nil => intro _; rfl
  | cons jw rest ih =>
    obtain ⟨j, w⟩ := jw
    intro h
    simp only [setKey]
    rw [if_neg (h (j, w) (List.mem_cons_self _ _)), ih (fun e he => h e (List.mem_cons_of_mem _ he))]
    simp

theorem lookupD_nonneg {I : Type} [DecidableEq I] :
    ∀ (l : List (I × ℚ)) (k : I), (∀ e ∈ l, 0 ≤ e.2) → 0 ≤ lookupD l k 0 := by
  intro l
  induction l with
  | nil =>
    intro k _
    simp [lookupD]
  | cons jw rest ih =>
    obtain ⟨j, w⟩ := jw
    intro k h
    simp only [lookupD]
    split
    · exact h (j, w) (List.mem_cons_self _ _)
    · exact ih k (fun e he => h e (List.mem_cons_of_mem _ he))

theorem filter_eq_self_of_length {α : Type} (p : α → Bool) :
    ∀ (l : List α), (l.filter p).length = l.length → l.filter p = l := by
  intro l
  induction l with
  | nil => intro _; rfl
  | cons x xs ih =>
    intro h
    by_cases hx : p x
    · rw [List.filter_cons_of_pos hx] at h ⊢
      simp only [List.length_cons, Nat.add_right_cancel_iff] at h
      rw [ih h]
    · rw [List.filter_cons_of_neg hx] at h
      have h2 := List.length_filter_le p xs
      simp only [List.length_cons] at h
      omega

theorem mem_listProduct_cons {α : Type} (l : List α) (ls : List (List α)) (t : List α) :
    t ∈ listProduct (l :: ls) ↔ ∃ x ∈ l, ∃ t2 ∈ listProduct ls, t = x :: t2 := by
  show t ∈ l.foldr (fun x acc => (listProduct ls).map (fun u => x :: u) ++ acc) [] ↔ _
  induction l with
  | nil => simp
  | cons x xs ih =>
    simp only [List.foldr_cons, List.mem_append, List.mem_map, ih, List.mem_cons]
    constructor
    · rintro (⟨t2, ht2, rfl⟩ | ⟨y, hy, t2, ht2, rfl⟩)
      · exact ⟨x, Or.inl rfl, t2, ht2, rfl⟩
      · exact ⟨y, Or.inr hy, t2, ht2, rfl⟩
    · rintro ⟨y, hy | hy, t2, ht2, rfl⟩
      · subst hy
        exact Or.inl ⟨t2, ht2, rfl⟩
      · exact Or.inr ⟨y, hy, t2, ht2, rfl⟩

theorem listProduct_zip_mem {α β : Type} (f : α → List β) :
    ∀ (agents : List α) (bundles : List β), bundles ∈ listProduct (agents.map f) →
      ∀ a ∈ agents, ∃ b, b ∈ f a ∧ (a, b) ∈ agents.zip bundles := by
  intro agents
  induction agents with
  | nil =>
    intro bundles _ a ha
    cases ha
  | cons a0 as ih =>
    intro bundles hb a ha
    rw [List.map_cons] at hb
    obtain ⟨x, hx, t2, ht2, rfl⟩ := (mem_listProduct_cons _ _ _).1 hb
    rcases List.mem_cons.1 ha with rfl | ha
    · exact ⟨x, hx, by simp [List.zip_cons_cons]⟩
    · obtain ⟨b, hbf, hbz⟩ := ih t2 ht2 a ha
      exact ⟨b, hbf, by simp [List.zip_cons_cons, hbz]⟩

theorem listProduct_length {α : Type} :
    ∀ (ls : List (List α)) (t : List α), t ∈ listProduct ls → t.length = ls.length := by
  intro ls
  induction ls with
  | nil =>
    intro t ht
    simp only [listProduct, List.mem_singleton] at ht
    simp [ht]
  | cons l ls ih =>
    intro t ht
    obtain ⟨x, _, t2, ht2, rfl⟩ := (mem_listProduct_cons _ _ _).1 ht
    simp [ih t2 ht2]

theorem best_bundles_loop_no_afford {I : Type} (pf vf : List I → ℚ) (budget : ℚ) :
    ∀ (l : List (List I)) (m : ℚ) (best : List (List I)),
      (∀ c ∈ l, ¬ pf c ≤ budget) → best_bundles_loop pf vf budget l m best = best := by
  intro l
  induction l with
  | nil =>
    intro m best _
    rfl
  | cons c rest ih =>
    intro m best h
    simp only [best_bundles_loop]
    rw [if_neg (h c (List.mem_cons_self _ _))]
    exact ih m best (fun d hd => h d (List.mem_cons_of_mem _ hd))

theorem budgetWalk_no_afford {I : Type} [DecidableEq I] (pf : List I → ℚ) (minB maxB : ℚ) :
    ∀ (l : List (List I)) (mp : Option ℚ) (acc : List (ℚ × List I)),
      (∀ c ∈ l, ¬ pf c ≤ maxB) → budgetWalk pf minB maxB l mp acc = acc := by
  intro l
  induction l with
  | nil =>
    intro mp acc _
    rfl
  | cons c rest ih =>
    intro mp acc h
    simp only [budgetWalk]
    rw [if_neg (h c (List.mem_cons_self _ _))]
    exact ih mp acc (fun d hd => h d (List.mem_cons_of_mem _ hd))

theorem gradient_loop_nonneg {I : Type} [DecidableEq I] (prices z : List (I × ℚ))
    (history : List (List (PriceConstraint I))) :
    ∀ (delta : List ℚ) (n : List (I × ℚ)), n ∈ gradient_neighbors_loop prices z history delta →
      ∀ e ∈ n, 0 ≤ e.2 := by
  intro delta
  induction delta with
  | nil =>
    intro n hn
    cases hn
  | cons d ds ih =>
    intro n hn
    simp only [gradient_neighbors_loop] at hn
    split at hn
    · exact ih n hn
    · rcases List.mem_cons.1 hn with rfl | hn2
      · intro e he
        obtain ⟨cp, _, rfl⟩ := List.mem_map.1 he
        exact le_max_left 0 _
      · exact ih n hn2

theorem sqrt_half_nonneg : (0:ℚ) ≤ sqrt_half := by norm_num [sqrt_half]

theorem positive_steps_nonneg {A I : Type} [DecidableEq A] [DecidableEq I]
    (inst : Instance A I) (history : List (List (PriceConstraint I)))
    (initial_budgets : A → ℚ) (allocation : List (A × List I)) (use_threads : Bool)
    (course : I) :
    ∀ (n : Nat) (up : List (I × ℚ)) (acc : List (List (I × ℚ))),
      (∀ e ∈ up, 0 ≤ e.2) → (∀ q ∈ acc, ∀ e ∈ q, 0 ≤ e.2) →
      ∀ q ∈ positive_adjustment_steps inst history initial_budgets allocation use_threads
          course n up acc, ∀ e ∈ q, 0 ≤ e.2 := by
  intro n
  induction n with
  | zero =>
    intro up acc _ hacc q hq
    exact hacc q hq
  | succ n ih =>
    intro up acc hup hacc q hq
    have hup2 : ∀ e ∈ setKey up course (lookupD up course 0 + sqrt_half), 0 ≤ e.2 := by
      intro e he
      rcases mem_setKey _ _ _ e he with rfl | h2
      · exact add_nonneg (lookupD_nonneg up course hup) sqrt_half_nonneg
      · exact hup e h2
    simp only [positive_adjustment_steps] at hq
    split at hq
    · exact ih _ acc hup2 hacc q hq
    · refine ih _ _ hup2 ?_ q hq
      intro r hr
      rcases List.mem_append.1 hr with hr | hr
      · exact hacc r hr
      · obtain ⟨_, _, rfl⟩ := List.mem_map.1 hr
        exact hup2

theorem individual_loop_nonneg {A I : Type} [DecidableEq A] [DecidableEq I]
    (inst : Instance A I) (history : List (List (PriceConstraint I)))
    (prices : List (I × ℚ)) (initial_budgets : A → ℚ) (allocation : List (A × List I))
    (use_threads : Bool) (hp : ∀ e ∈ prices, 0 ≤ e.2) :
    ∀ (z : List (I × ℚ)) (acc : List (List (I × ℚ))),
      (∀ q ∈ acc, ∀ e ∈ q, 0 ≤ e.2) →
      ∀ q ∈ individual_adjustment_loop inst history prices initial_budgets allocation
          use_threads z acc, ∀ e ∈ q, 0 ≤ e.2 := by
  intro z
  induction z with
  | nil =>
    intro acc hacc q hq
    exact hacc q hq
  | cons ce rest ih =>
    obtain ⟨course, ed⟩ := ce
    intro acc hacc q hq
    simp only [individual_adjustment_loop] at hq
    split at hq
    · exact hacc q hq
    · split at hq
      · exact ih acc hacc q hq
      · split at hq
        · exact ih _ (positive_steps_nonneg inst history initial_budgets allocation
            use_threads course 10 prices acc hp hacc) q hq
        · have hup : ∀ e ∈ setKey prices course 0, 0 ≤ e.2 := by
            intro e he
            rcases mem_setKey _ _ _ e he with rfl | h2
            · exact le_refl 0
            · exact hp e h2
          split at hq
          · exact ih acc hacc q hq
          · refine ih _ ?_ q hq
            intro r hr
            rcases List.mem_append.1 hr with hr | hr
            · exact hacc r hr
            · rw [List.mem_singleton.1 hr]
              exact hup

theorem individual_loop_le35 {A I : Type} [DecidableEq A] [DecidableEq I]
    (inst : Instance A I) (history : List (List (PriceConstraint I)))
    (prices : List (I × ℚ)) (initial_budgets : A → ℚ) (allocation : List (A × List I))
    (use_threads : Bool) :
    ∀ (z : List (I × ℚ)) (acc : List (List (I × ℚ))),
      (∀ e ∈ z, e.2 ≤ 0) → acc.length ≤ 35 →
      (individual_adjustment_loop inst history prices initial_budgets allocation
        use_threads z acc).length ≤ 35 := by
  intro z
  induction z with
  | nil =>
    intro acc _ hacc
    exact hacc
  | cons ce rest ih =>
    obtain ⟨course, ed⟩ := ce
    intro acc hz hacc
    have hed : ed ≤ 0 := hz (course, ed) (List.mem_cons_self _ _)
    have hrest : ∀ e ∈ rest, e.2 ≤ 0 := fun e he => hz e (List.mem_cons_of_mem _ he)
    simp only [individual_adjustment_loop]
    split
    · exact hacc
    · rename_i hlt
      split
      · exact ih acc hrest hacc
      · split
        · rename_i hpos
          exact absurd hpos (not_lt.2 hed)
        · split
          · exact ih acc hrest hacc
          · refine ih _ hrest ?_
            simp only [List.length_append, List.length_singleton]
            omega

theorem mem_valid_allocations {A I : Type} [DecidableEq I] {prices : List (I × ℚ)}
    {agents : List A} {initial_budgets : A → ℚ} {acl : List (List (List I))}
    {alloc : List (A × List I)}
    (h : alloc ∈ valid_allocations prices agents initial_budgets acl) :
    ∃ bundles ∈ acl,
      alloc = agents.zip bundles
      ∧ agents.length ≤ bundles.length
      ∧ ∀ sb ∈ alloc, priceOfBundle prices sb.2 ≤ initial_budgets sb.1 := by
  obtain ⟨bundles, hb, hf⟩ := List.mem_filterMap.1 h
  dsimp only at hf
  split at hf
  · rename_i hlen
    injection hf with hf
    subst hf
    have hle1 := List.length_filter_le
      (fun sb => decide (priceOfBundle prices sb.2 ≤ initial_budgets sb.1)) (agents.zip bundles)
    have hzle : (agents.zip bundles).length ≤ agents.length := by
      rw [List.length_zip]
      exact min_le_left _ _
    have hzeq : (agents.zip bundles).length = agents.length := le_antisymm hzle (by omega)
    have hfe := filter_eq_self_of_length
      (fun sb => decide (priceOfBundle prices sb.2 ≤ initial_budgets sb.1)) (agents.zip bundles)
      (by omega)
    refine ⟨bundles, hb, by rw [hfe], ?_, ?_⟩
    · have hmin : min agents.length bundles.length = agents.length := by
        rw [← List.length_zip]
        exact hzeq
      exact min_eq_left_iff.1 hmin
    · intro sb hsb
      have := List.of_mem_filter hsb
      exact of_decide_eq_true this
  · cases hf

theorem find?_cons_true {α : Type} (p : α → Bool) (a : α) (l : List α) (h : p a = true) :
    List.find? p (a :: l) = some a := by
  simp [List.find?_cons, h]

theorem find?_cons_false {α : Type} (p : α → Bool) (a : α) (l : List α) (h : p a = false) :
    List.find? p (a :: l) = List.find? p l := by
  simp [List.find?_cons, h]

theorem budgetWalk_spec {I : Type} [DecidableEq I] (pf : List I → ℚ) (minB maxB : ℚ)
    (hB : minB ≤ maxB) :
    ∀ (combos : List (List I)) (minPrice : Option ℚ) (acc : List (ℚ × List I)),
      (∀ e ∈ acc, minB < e.1 ∧ e.1 ≤ maxB ∧ e.1 = pf e.2) →
      List.Pairwise (fun x y => y.1 < x.1) acc →
      (∀ m, minPrice = some m → ∀ e ∈ acc, m ≤ e.1) →
      (minPrice = none → acc = []) →
      (∀ e ∈ budgetWalk pf minB maxB combos minPrice acc,
          (e.1 = minB ∧ pf e.2 ≤ e.1) ∨ (minB < e.1 ∧ e.1 ≤ maxB ∧ e.1 = pf e.2))
      ∧ List.Pairwise (fun x y => y.1 < x.1) (budgetWalk pf minB maxB combos minPrice acc)
      ∧ ∀ c, combos.find? (fun c2 => decide (pf c2 ≤ minB)) = some c →
          (budgetWalk pf minB maxB combos minPrice acc).getLast? = some (minB, c) := by
  intro combos
  induction combos with
  | nil =>
    intro minPrice acc hacc hpw _ _
    refine ⟨fun e he => Or.inr (hacc e he), hpw, fun c hc => ?_⟩
    rw [List.find?_nil] at hc
    cases hc
  | cons c0 rest ih =>
    intro minPrice acc hacc hpw hmin hnone
    by_cases h1 : pf c0 ≤ maxB
    · by_cases h2 : pf c0 ≤ minB
      · have hfresh : ∀ e ∈ acc, e.1 ≠ minB := fun e he => ne_of_gt (hacc e he).1
        have hwalk : budgetWalk pf minB maxB (c0 :: rest) minPrice acc = acc ++ [(minB, c0)] := by
          simp only [budgetWalk]
          rw [if_pos h1, if_pos h2]
          exact setKey_fresh minB c0 acc hfresh
        rw [hwalk]
        refine ⟨?_, ?_, ?_⟩
        · intro e he
          rcases List.mem_append.1 he with he | he
          · exact Or.inr (hacc e he)
          · rw [List.mem_singleton.1 he]
            exact Or.inl ⟨rfl, h2⟩
        · rw [List.pairwise_append]
          refine ⟨hpw, List.pairwise_singleton _ _, ?_⟩
          intro a ha b hb
          rw [List.mem_singleton.1 hb]
          exact (hacc a ha).1
        · intro c hc
          rw [find?_cons_true (fun c2 => decide (pf c2 ≤ minB)) c0 rest (by simpa using h2)] at hc
          injection hc with hc
          rw [← hc]
          exact List.getLast?_concat _
      · have hminlt : minB < pf c0 := not_le.1 h2
        have hpred : decide (pf c0 ≤ minB) = false := by
          simpa using h2
        cases minPrice with
        | none =>
          have hae : acc = [] := hnone rfl
          subst hae
          have hwalk : budgetWalk pf minB maxB (c0 :: rest) none []
              = budgetWalk pf minB maxB rest (some (pf c0)) [(pf c0, c0)] := by
            simp only [budgetWalk]
            rw [if_pos h1, if_neg h2, if_pos trivial]
            rfl
          rw [hwalk]
          have hres := ih (some (pf c0)) [(pf c0, c0)]
            (by
              intro e he
              rw [List.mem_singleton.1 he]
              exact ⟨hminlt, h1, rfl⟩)
            (List.pairwise_singleton _ _)
            (by
              intro m hm e he
              injection hm with hm
              subst hm
              rw [List.mem_singleton.1 he])
            (by intro hcon; cases hcon)
          refine ⟨hres.1, hres.2.1, fun c hc => ?_⟩
          rw [find?_cons_false (fun c2 => decide (pf c2 ≤ minB)) c0 rest hpred] at hc
          exact hres.2.2 c hc
        | some m =>
          by_cases h3 : pf c0 < m
          · have hfresh : ∀ e ∈ acc, e.1 ≠ pf c0 :=
              fun e he => ne_of_gt (lt_of_lt_of_le h3 (hmin m rfl e he))
            have hwalk : budgetWalk pf minB maxB (c0 :: rest) (some m) acc
                = budgetWalk pf minB maxB rest (some (pf c0)) (acc ++ [(pf c0, c0)]) := by
              simp only [budgetWalk]
              rw [if_pos h1, if_neg h2, if_pos (by simpa using h3),
                setKey_fresh _ _ acc hfresh]
            rw [hwalk]
            have hres := ih (some (pf c0)) (acc ++ [(pf c0, c0)])
              (by
                intro e he
                rcases List.mem_append.1 he with he | he
                · exact hacc e he
                · rw [List.mem_singleton.1 he]
                  exact ⟨hminlt, h1, rfl⟩)
              (by
                rw [List.pairwise_append]
                refine ⟨hpw, List.pairwise_singleton _ _, ?_⟩
                intro a ha b hb
                rw [List.mem_singleton.1 hb]
                exact lt_of_lt_of_le h3 (hmin m rfl a ha))
              (by
                intro m2 hm2 e he
                injection hm2 with hm2
                subst hm2
                rcases List.mem_append.1 he with he | he
                · exact le_of_lt (lt_of_lt_of_le h3 (hmin m rfl e he))
                · rw [List.mem_singleton.1 he])
              (by intro hcon; cases hcon)
            refine ⟨hres.1, hres.2.1, fun c hc => ?_⟩
            rw [find?_cons_false (fun c2 => decide (pf c2 ≤ minB)) c0 rest hpred] at hc
            exact hres.2.2 c hc
          · have hwalk : budgetWalk pf minB maxB (c0 :: rest) (some m) acc
                = budgetWalk pf minB maxB rest (some m) acc := by
              simp only [budgetWalk]
              rw [if_pos h1, if_neg h2, if_neg (by simpa using h3)]
            rw [hwalk]
            have hres := ih (some m) acc hacc hpw hmin hnone
            refine ⟨hres.1, hres.2.1, fun c hc => ?_⟩
            rw [find?_cons_false (fun c2 => decide (pf c2 ≤ minB)) c0 rest hpred] at hc
            exact hres.2.2 c hc
    · have hpred : decide (pf c0 ≤ minB) = false := by
        simp only [decide_eq_false_iff_not]
        intro hle
        exact h1 (le_trans hle hB)
      have hwalk : budgetWalk pf minB maxB (c0 :: rest) minPrice acc
          = budgetWalk pf minB maxB rest minPrice acc := by
        simp only [budgetWalk]
        rw [if_neg h1]
      rw [hwalk]
      have hres := ih minPrice acc hacc hpw hmin hnone
      refine ⟨hres.1, hres.2.1, fun c hc => ?_⟩
      rw [find?_cons_false (fun c2 => decide (pf c2 ≤ minB)) c0 rest hpred] at hc
      exact hres.2.2 c hc

/-! ### Claim theorems -/

/-- C1: the non-improvement predicates generated by
`find_all_equivalent_prices` compare the price of the CURRENT bundle
against the budget, so together with the budget-adherence predicate they
are unsatisfiable whenever any alternative combination reaches the
original utility.  At the concrete input below the agent's bundle is
affordable and value-maximal among the affordable combinations, yet
feeding the price vector back into the generated predicates yields
false, contradicting the spec's idempotence property. -/
theorem C1_equivalent_prices_self_check_fails :
    (priceOfBundle pC1 (lookupD allocC1 0 []) ≤ budC1 0)
    ∧ (∀ c ∈ combinationsList instC1.items (instC1.agent_capacity 0),
        priceOfBundle pC1 c ≤ budC1 0 →
          instC1.agent_bundle_value 0 c ≤ instC1.agent_bundle_value 0 (lookupD allocC1 0 []))
    ∧ all_equivalent_prices_hold pC1 (find_all_equivalent_prices instC1 budC1 allocC1) = false :=
  ⟨by decide, by decide, by decide⟩

/-- C2 (amended): every price vector produced by the tabu neighbor
generators is non-negative per item — gradient neighbors unconditionally
(they clip at zero), individual price adjustment neighbors whenever the
input price vector is non-negative.  (The ACEEI price update has no such
clipping, see the counterexample.) -/
theorem C2_tabu_neighbor_prices_nonneg {A I : Type} [DecidableEq A] [DecidableEq I]
    (inst : Instance A I) (history : List (List (PriceConstraint I)))
    (prices excess_demand_vector : List (I × ℚ)) (delta : List ℚ)
    (initial_budgets : A → ℚ) (allocation : List (A × List I)) (use_threads : Bool) :
    (∀ n ∈ find_gradient_neighbors prices delta excess_demand_vector history,
        ∀ e ∈ n, 0 ≤ e.2)
    ∧ ((∀ e ∈ prices, 0 ≤ e.2) →
        ∀ n ∈ find_individual_price_adjustment_neighbors inst history prices
            excess_demand_vector initial_budgets allocation use_threads,
          ∀ e ∈ n, 0 ≤ e.2) :=
  ⟨fun n hn => gradient_loop_nonneg prices excess_demand_vector history delta n hn,
   fun hp n hn => individual_loop_nonneg inst history prices initial_budgets allocation
     use_threads hp excess_demand_vector [] (fun q hq => absurd hq (List.not_mem_nil q)) n hn⟩

/-- C2 counterexample: the ACEEI price update
`prices[key] += delta * excess_demand_per_course[key]` is not clipped at
zero: starting from price 0 with excess demand -2 and step 1/2 the
updated price is negative. -/
theorem C2_aceei_update_goes_negative :
    lookupD (aceei_price_update (1/2) [((0:ℕ), (-2:ℚ))] [((0:ℕ), (0:ℚ))]) 0 0 < 0 := by
  decide

/-- C2 witness: concrete non-negative input prices and the conclusion of
the amended theorem at that input. -/
theorem C2_tabu_neighbor_prices_nonneg_witness :
    (∀ e ∈ pC2, 0 ≤ e.2)
    ∧ (∀ n ∈ find_gradient_neighbors pC2 [1] zC2 [], ∀ e ∈ n, 0 ≤ e.2)
    ∧ (∀ n ∈ find_individual_price_adjustment_neighbors instC2 [] pC2 zC2 budC2 allocC2 false,
        ∀ e ∈ n, 0 ≤ e.2) :=
  ⟨by decide,
   (C2_tabu_neighbor_prices_nonneg instC2 [] pC2 zC2 [1] budC2 allocC2 false).1,
   (C2_tabu_neighbor_prices_nonneg instC2 [] pC2 zC2 [1] budC2 allocC2 false).2 (by decide)⟩

/-- C3 (amended): the window-mode enumeration
(`student_best_bundle_per_budget`) ranks combinations in descending order
of bundle value plus the capacity-filling bonus, while the fixed-budget
enumeration (`student_best_bundles` and
`compute_best_bundles_for_student`) ranks them in descending order of the
raw bundle value with no bonus. -/
theorem C3_sorted_descending_keys {A I : Type} (inst : Instance A I) (student : A) :
    List.Pairwise
      (fun c d => window_valuation inst student d ≤ window_valuation inst student c)
      (combinations_courses_sorted_window inst student)
    ∧ List.Pairwise
      (fun c d => inst.agent_bundle_value student d ≤ inst.agent_bundle_value student c)
      (combinations_courses_sorted_fixed inst student) :=
  ⟨sortDesc_pairwise _ _, sortDesc_pairwise _ _⟩

/-- C3 counterexample: the fixed-budget enumeration order is not sorted
by the bonus-augmented key: with items 0,1,2, capacity 2 and only item 0
valued, the sorted-by-raw-value list starts with the singleton bundle
of item 0, whose bonus-augmented key is smaller than that of the
capacity-filling pair that follows it. -/
theorem C3_fixed_mode_ignores_capacity_bonus :
    ¬ List.Pairwise
      (fun c d => window_valuation instC3 0 d ≤ window_valuation instC3 0 c)
      (combinations_courses_sorted_fixed instC3 0) := by decide

/-- C4 (amended): in window mode every recorded entry for an agent is
either the break entry, keyed exactly at budget - epsilon with the
combination priced at or below that key, or is keyed at the combination
price, which lies strictly above budget - epsilon and AT MOST
budget + epsilon (the boundary price budget + epsilon is included, not
excluded); recorded keys strictly decrease along the walk, and the first
combination priced at or below budget - epsilon, if any, is the last
record, keyed exactly at budget - epsilon. -/
theorem C4_window_walk_recording {A I : Type} [DecidableEq I]
    (prices : List (I × ℚ)) (inst : Instance A I) (epsilon : ℚ) (initial_budgets : A → ℚ)
    (student : A) (entries : List (ℚ × List I)) (heps : 0 ≤ epsilon)
    (hmem : (student, entries) ∈
      student_best_bundle_per_budget prices inst epsilon initial_budgets) :
    (∀ e ∈ entries,
        (e.1 = initial_budgets student - epsilon ∧ priceOfBundle prices e.2 ≤ e.1)
      ∨ (initial_budgets student - epsilon < e.1
          ∧ e.1 ≤ initial_budgets student + epsilon
          ∧ e.1 = priceOfBundle prices e.2))
    ∧ List.Pairwise (fun x y => y.1 < x.1) entries
    ∧ ∀ c, (combinations_courses_sorted_window inst student).find?
          (fun c2 => decide (priceOfBundle prices c2 ≤ initial_budgets student - epsilon))
          = some c →
        entries.getLast? = some (initial_budgets student - epsilon, c) := by
  obtain ⟨a, ha, heq⟩ := List.mem_map.1 hmem
  injection heq with h1 h2
  subst h1
  subst h2
  exact budgetWalk_spec (priceOfBundle prices) (initial_budgets a - epsilon)
    (initial_budgets a + epsilon) (by linarith)
    (combinations_courses_sorted_window inst a) none []
    (by intro e he; cases he) List.Pairwise.nil
    (by intro m hm; cases hm) (fun _ => rfl)

/-- C4 counterexample: with budget 2 and epsilon 1 a combination of
price exactly 3 = budget + epsilon IS recorded (under key 3), although
the claim allows non-break records only strictly between budget - epsilon
and budget + epsilon. -/
theorem C4_records_price_equal_to_max_budget :
    student_best_bundle_per_budget pC4 instC4 1 budC4 = [(0, [((3:ℚ), [0])])]
    ∧ priceOfBundle pC4 [0] = budC4 0 + 1
    ∧ ¬ ((3:ℚ) < budC4 0 + 1)
    ∧ (3:ℚ) ≠ budC4 0 - 1 :=
  ⟨by decide, by decide, by decide, by decide⟩

/-- C4 witness: a concrete window walk whose single record is the break
entry, with the amended characterization instantiated. -/
theorem C4_window_walk_recording_witness :
    ((0:ℚ) ≤ 1)
    ∧ ((0, [((1:ℚ), [(0:ℕ)])]) ∈ student_best_bundle_per_budget pC4b instC4 1 budC4b)
    ∧ List.Pairwise (fun x y => y.1 < x.1) [((1:ℚ), [(0:ℕ)])] :=
  ⟨by decide, by decide,
   (C4_window_walk_recording pC4b instC4 1 budC4b 0 [((1:ℚ), [0])]
     (by decide) (by decide)).2.1⟩

/-- C5 (amended): the 35-neighbor cap of
`find_individual_price_adjustment_neighbors` is only checked before each
item is processed, so it bounds the output only when no single item can
contribute more than one neighbor; in particular when every item's
excess demand is non-positive (each processed item contributes at most
one snapped-to-zero neighbor) the returned list has at most 35 entries.
With positive excess demand a single item can push the total past 35
(see the counterexample). -/
theorem C5_neighbor_cap_nonpositive_excess {A I : Type} [DecidableEq A] [DecidableEq I]
    (inst : Instance A I) (history : List (List (PriceConstraint I)))
    (prices excess_demand_vector : List (I × ℚ)) (initial_budgets : A → ℚ)
    (allocation : List (A × List I)) (use_threads : Bool)
    (hz : ∀ e ∈ excess_demand_vector, e.2 ≤ 0) :
    (find_individual_price_adjustment_neighbors inst history prices excess_demand_vector
      initial_budgets allocation use_threads).length ≤ 35 :=
  individual_loop_le35 inst history prices initial_budgets allocation use_threads
    excess_demand_vector [] hz (by norm_num)

/-- C5 counterexample: four agents tied between two equal-valued items
and all holding the positive-excess item produce four accepted neighbors
at each of the ten bump steps of that single item, 40 neighbors in
total, exceeding the claimed cap of 35. -/
theorem C5_neighbor_count_can_exceed_cap :
    35 < (find_individual_price_adjustment_neighbors instC5 [] pC5 zC5 budC5 allocC5
      false).length := by decide

/-- C5 witness: a non-positive excess-demand vector with the cap
conclusion instantiated. -/
theorem C5_neighbor_cap_witness :
    (∀ e ∈ zC5b, e.2 ≤ 0)
    ∧ (find_individual_price_adjustment_neighbors instC5 [] pC5 zC5b budC5 allocC5
        false).length ≤ 35 :=
  ⟨by decide,
   C5_neighbor_cap_nonpositive_excess instC5 [] pC5 zC5b budC5 allocC5 false (by decide)⟩

/-- C6 (amended): an agent for whom no combination of sizes 1..capacity
is affordable is degraded, not fatal, in both enumeration modes, but the
degraded forms differ: in fixed-budget mode every returned allocation
assigns that agent the empty bundle, while in window mode the agent is
mapped to the EMPTY budget-to-bundle mapping (the agent receives no
bundle entry at all, in particular not the empty bundle). -/
theorem C6_no_affordable_bundle {A I : Type} [DecidableEq I]
    (prices : List (I × ℚ)) (inst : Instance A I) (initial_budgets : A → ℚ) (epsilon : ℚ)
    (student : A) (hs : student ∈ inst.agents) :
    ((∀ c ∈ combinationsList inst.items (inst.agent_capacity student),
        ¬ priceOfBundle prices c ≤ initial_budgets student) →
      ∀ alloc ∈ student_best_bundles prices inst initial_budgets,
        (student, ([] : List I)) ∈ alloc)
    ∧ ((∀ c ∈ combinationsList inst.items (inst.agent_capacity student),
        ¬ priceOfBundle prices c ≤ initial_budgets student + epsilon) →
      (student, ([] : List (ℚ × List I))) ∈
        student_best_bundle_per_budget prices inst epsilon initial_budgets) := by
  constructor
  · intro hna alloc halloc
    obtain ⟨bundles, hbl, heq, _, _⟩ := mem_valid_allocations halloc
    obtain ⟨b, hb, hzip⟩ := listProduct_zip_mem _ inst.agents bundles hbl student hs
    have hloop : best_bundles_loop (priceOfBundle prices) (inst.agent_bundle_value student)
        (initial_budgets student) (combinations_courses_sorted_fixed inst student) (-1) []
        = [] :=
      best_bundles_loop_no_afford _ _ _ _ (-1) []
        (fun c hc => hna c ((mem_sortDesc _ _ c).1 hc))
    simp only [hloop, List.mem_singleton, if_pos] at hb
    subst hb
    rw [heq]
    exact hzip
  · intro hna
    have hwalk : budgetWalk (priceOfBundle prices) (initial_budgets student - epsilon)
        (initial_budgets student + epsilon) (combinations_courses_sorted_window inst student)
        none [] = [] :=
      budgetWalk_no_afford _ _ _ _ none []
        (fun c hc => hna c ((mem_sortDesc _ _ c).1 hc))
    refine List.mem_map.2 ⟨student, hs, ?_⟩
    show (student, budgetWalk (priceOfBundle prices) (initial_budgets student - epsilon)
      (initial_budgets student + epsilon) (combinations_courses_sorted_window inst student)
      none []) = (student, ([] : List (ℚ × List I)))
    rw [hwalk]

/-- C6 counterexample: with a single item priced 10 and budget 1 no
combination is affordable, and the window-mode result maps the agent to
the empty mapping: no budget key, not even one carrying the empty
bundle, so the agent does not receive the empty bundle in window mode. -/
theorem C6_window_mode_empty_mapping :
    student_best_bundle_per_budget pC6 instC6 0 budC6 = [(0, ([] : List (ℚ × List ℕ)))]
    ∧ (∀ c ∈ combinationsList instC6.items (instC6.agent_capacity 0),
        ¬ priceOfBundle pC6 c ≤ budC6 0 + 0)
    ∧ ¬ ∃ k : ℚ, (k, ([] : List ℕ)) ∈
        lookupD (student_best_bundle_per_budget pC6 instC6 0 budC6) 0 [(0, [0])] := by
  refine ⟨by decide, by decide, ?_⟩
  rintro ⟨k, hk⟩
  rw [show student_best_bundle_per_budget pC6 instC6 0 budC6
      = [(0, ([] : List (ℚ × List ℕ)))] from by decide] at hk
  simp [lookupD] at hk

/-- C6 witness: the concrete unaffordable instance with both amended
conclusions instantiated. -/
theorem C6_no_affordable_bundle_witness :
    ((0:ℕ) ∈ instC6.agents)
    ∧ (∀ alloc ∈ student_best_bundles pC6 instC6 budC6, ((0:ℕ), ([] : List ℕ)) ∈ alloc)
    ∧ (((0:ℕ), ([] : List (ℚ × List ℕ))) ∈ student_best_bundle_per_budget pC6 instC6 0 budC6) :=
  ⟨by decide,
   (C6_no_affordable_bundle pC6 instC6 budC6 0 0 (by decide)).1 (by decide),
   (C6_no_affordable_bundle pC6 instC6 budC6 0 0 (by decide)).2 (by decide)⟩

/-- C7: the clipped excess demand agrees with the raw excess demand on
every item with nonzero price, equals the zero-floored excess demand on
every item priced exactly zero, and is therefore non-negative on
zero-priced items. -/
theorem C7_clipped_excess_demand_spec {A I : Type} [DecidableEq I]
    (inst : Instance A I) (prices : List (I × ℚ)) (allocation : List (A × List I))
    (course : I) (hc : course ∈ inst.items) :
    (lookupD prices course 0 ≠ 0 →
      lookupD (clipped_excess_demand inst prices allocation) course 0
        = lookupD (excess_demand inst allocation) course 0)
    ∧ (lookupD prices course 0 = 0 →
      lookupD (clipped_excess_demand inst prices allocation) course 0
        = max 0 (lookupD (excess_demand inst allocation) course 0))
    ∧ (lookupD prices course 0 = 0 →
      0 ≤ lookupD (clipped_excess_demand inst prices allocation) course 0) := by
  have h1 : lookupD (excess_demand inst allocation) course 0
      = (allocation.countP (fun sb => decide (course ∈ sb.2)) : Int)
        - inst.item_capacity course := by
    simp only [excess_demand]
    exact lookupD_map_self _ inst.items course hc 0
  have hmap : clipped_excess_demand inst prices allocation
      = inst.items.map (fun c =>
          (c, if lookupD prices c 0 = 0
              then max 0 ((allocation.countP (fun sb => decide (c ∈ sb.2)) : Int)
                - inst.item_capacity c)
              else (allocation.countP (fun sb => decide (c ∈ sb.2)) : Int)
                - inst.item_capacity c)) := by
    simp only [clipped_excess_demand, excess_demand, List.map_map]
    rfl
  have h2 : lookupD (clipped_excess_demand inst prices allocation) course 0
      = if lookupD prices course 0 = 0
        then max 0 ((allocation.countP (fun sb => decide (course ∈ sb.2)) : Int)
          - inst.item_capacity course)
        else (allocation.countP (fun sb => decide (course ∈ sb.2)) : Int)
          - inst.item_capacity course := by
    rw [hmap]
    exact lookupD_map_self _ inst.items course hc 0
  refine ⟨?_, ?_, ?_⟩
  · intro hp
    rw [h1, h2, if_neg hp]
  · intro hp
    rw [h1, h2, if_pos hp]
  · intro hp
    rw [h2, if_pos hp]
    exact le_max_left 0 _

/-- C7 witness: an item priced zero with negative raw excess demand has
clipped excess demand zero. -/
theorem C7_clipped_excess_demand_witness :
    lookupD pC7 0 0 = 0
    ∧ 0 ≤ lookupD (clipped_excess_demand instC7 pC7 allocC7) 0 0 :=
  ⟨by decide, (C7_clipped_excess_demand_spec instC7 pC7 allocC7 0 (by decide)).2.2 (by decide)⟩

/-- C8: excess demand maps every instance item to the number of agents
holding the item minus the item capacity, is invariant under permuting
the agent entries of the allocation, and evaluates on the spec scenario
(allocation ami and tami both holding x and y, capacities x 2, y 1, z 3,
encoded over natural-number identifiers) to x 0, y 1, z -3. -/
theorem C8_excess_demand_spec {A I : Type} [DecidableEq I] (inst : Instance A I)
    (allocation allocation2 : List (A × List I)) :
    (∀ course ∈ inst.items,
        lookupD (excess_demand inst allocation) course 0
          = (allocation.countP (fun sb => decide (course ∈ sb.2)) : Int)
            - inst.item_capacity course)
    ∧ (allocation.Perm allocation2 →
        excess_demand inst allocation = excess_demand inst allocation2)
    ∧ excess_demand instC8 allocC8 = [(0, 0), (1, 1), (2, -3)] := by
  refine ⟨?_, ?_, by decide⟩
  · intro course hc
    simp only [excess_demand]
    exact lookupD_map_self _ inst.items course hc 0
  · intro hperm
    simp only [excess_demand]
    have hcount : ∀ p : (A × List I) → Bool, allocation.countP p = allocation2.countP p :=
      fun p => hperm.countP_eq p
    simp [hcount]

/-- C8 witness: the spec scenario with the count characterization and
agent-order independence instantiated on a transposed allocation. -/
theorem C8_excess_demand_witness :
    ((0:ℕ) ∈ instC8.items)
    ∧ allocC8.Perm allocC8swap
    ∧ lookupD (excess_demand instC8 allocC8) 0 0
        = (allocC8.countP (fun sb => decide ((0:ℕ) ∈ sb.2)) : Int) - instC8.item_capacity 0
    ∧ excess_demand instC8 allocC8 = excess_demand instC8 allocC8swap :=
  ⟨by decide, by decide,
   (C8_excess_demand_spec instC8 allocC8 allocC8swap).1 0 (by decide),
   (C8_excess_demand_spec instC8 allocC8 allocC8swap).2.1 (by decide)⟩

/-- C9: every allocation returned by the fixed-budget enumeration is
valid: its keys are exactly the instance agents (every agent is
assigned a bundle) and each assigned bundle is priced within the
agent's initial budget. -/
theorem C9_student_best_bundles_valid {A I : Type} [DecidableEq I]
    (prices : List (I × ℚ)) (inst : Instance A I) (initial_budgets : A → ℚ)
    (alloc : List (A × List I))
    (h : alloc ∈ student_best_bundles prices inst initial_budgets) :
    alloc.map Prod.fst = inst.agents
    ∧ ∀ sb ∈ alloc, priceOfBundle prices sb.2 ≤ initial_budgets sb.1 := by
  obtain ⟨bundles, _, heq, hlen, hpairs⟩ := mem_valid_allocations h
  subst heq
  exact ⟨List.map_fst_zip _ _ hlen, hpairs⟩

/-- C9 witness: a concrete returned allocation with the validity
conclusions instantiated. -/
theorem C9_student_best_bundles_valid_witness :
    ([((0:ℕ), [(0:ℕ)])] ∈ student_best_bundles pC9 instC9 budC9)
    ∧ ([((0:ℕ), [(0:ℕ)])].map Prod.fst = instC9.agents
        ∧ ∀ sb ∈ [((0:ℕ), [(0:ℕ)])], priceOfBundle pC9 sb.2 ≤ budC9 sb.1) :=
  ⟨by decide, C9_student_best_bundles_valid pC9 instC9 budC9 [(0, [0])] (by decide)⟩

/-- C10: the sequential and the thread-pool bundle enumerations compute
the same function; the thread pool submits one task per agent and awaits
the results in submission order (agent-list order), so it is a
deterministic per-agent map merged by agent key, and the validity tail
is the same code in both versions. -/
theorem C10_threads_equal_sequential {A I : Type} [DecidableEq I]
    (prices : List (I × ℚ)) (inst : Instance A I) (initial_budgets : A → ℚ) :
    student_best_bundles prices inst initial_budgets
      = student_best_bundles_with_threads prices inst initial_budgets := rfl
